import Mathlib

/-!
Verification of the CSV bulk keyword-generation pipeline in
`src/components/PetInputForm.tsx` (the `BulkGenerator` component and its
helpers `parseCSV`, `generateKeywordsFromApi`, `handleDownload`,
`handleFileChange`, `toggleProcessing`, `allKeywords`).

The TypeScript source is shallowly embedded below: JavaScript strings are
`String`/`List Char`, JavaScript objects keyed by column name are insertion
ordered association lists, and the React effect-driven run loop is an
explicit event step function.
-/

namespace KeywordsGen

/-! ## JavaScript string primitives

Models of the string operations the source relies on: `String.prototype.trim`,
`replace(/\r\n/g, '\n')`, `split('\n')`, `split(',')`, and the quote-aware
regex split `split(/,(?=(?:(?:[^"]*"){2})*[^"]*$)/)`. -/

/-- A whitespace character, as `String.prototype.trim` strips it. -/
def isWS (c : Char) : Bool := c.isWhitespace

/-- `s.trim()` on the character list: drop whitespace from both ends. -/
def trimChars (s : List Char) : List Char :=
  ((s.dropWhile isWS).reverse.dropWhile isWS).reverse

/-- `text.replace(/\r\n/g, '\n')`: left-to-right, non-overlapping. -/
def normalizeNewlines : List Char → List Char
  | [] => []
  | '\r' :: '\n' :: rest => '\n' :: normalizeNewlines rest
  | c :: rest => c :: normalizeNewlines rest

/-- `s.split(sep)` for a single-character separator: always at least one
(possibly empty) piece, like the JavaScript `String.prototype.split`. -/
def splitOnChar (sep : Char) : List Char → List (List Char)
  | [] => [[]]
  | c :: rest =>
    if c = sep then [] :: splitOnChar sep rest
    else
      match splitOnChar sep rest with
      | [] => [[]]
      | f :: fs => (c :: f) :: fs

/-- Number of double-quote characters in a string. -/
def countQuotes (s : List Char) : Nat := s.countP (fun c => c = '"')

/-- `line.split(/,(?=(?:(?:[^"]*"){2})*[^"]*$)/)`: split at exactly the commas
that are followed by an even number of double quotes up to the end of the
line (the lookahead `(?:(?:[^"]*"){2})*[^"]*$` matches a suffix iff its
double-quote count is even). -/
def splitRegexComma : List Char → List (List Char)
  | [] => [[]]
  | c :: rest =>
    if c = ',' ∧ countQuotes rest % 2 = 0 then
      [] :: splitRegexComma rest
    else
      match splitRegexComma rest with
      | [] => [[c]]
      | f :: fs => (c :: f) :: fs

/-- `value.startsWith('"')`. -/
def startsWithQuote : List Char → Bool
  | '"' :: _ => true
  | _ => false

/-- `value.startsWith('"') && value.endsWith('"') ? value.slice(1, -1) : value`
from the row mapping of `parseCSV`. -/
def stripQuotes (v : List Char) : List Char :=
  if startsWithQuote v && startsWithQuote v.reverse then (v.drop 1).dropLast else v

/-! ## The CSV parser (`parseCSV`, source lines 204-220) -/

/-- A parsed row: an insertion-ordered mapping from column name to value,
modelling the JavaScript object `row` built by `parseCSV`. -/
abbrev CSVRow := List (String × String)

/-- `row[header] = value`: JavaScript object assignment. A fresh string key is
appended in insertion order; an existing key is overwritten in place. -/
def setKey (row : CSVRow) (k v : String) : CSVRow :=
  if row.any (fun kv => kv.1 = k) then
    row.map (fun kv => if kv.1 = k then (k, v) else kv)
  else row ++ [(k, v)]

/-- `row[h]` as read by the component (`row.title`, `row[h] || ''`):
the value stored at key `h`, or the empty string when absent (`undefined`
and `''` are both falsy, so `|| ''` sends both to `''`). -/
def rowGet (row : CSVRow) (k : String) : String :=
  match row.find? (fun kv => kv.1 = k) with
  | some kv => kv.2
  | none => ""

/-- The `headers.forEach((header, i) => { ... })` body of `parseCSV`:
`const value = (values[i] || '').trim();`
`row[header] = value.startsWith('"') && value.endsWith('"') ? value.slice(1, -1) : value;` -/
def buildRow (headers : List String) (values : List (List Char)) : CSVRow :=
  (headers.enum).foldl
    (fun row p =>
      setKey row p.2 (String.mk (stripQuotes (trimChars (values.getD p.1 [])))))
    []

/-- `parseCSV` (source lines 204-220): trim the text, normalize CRLF, split
into lines; fewer than 2 lines yields the empty result; the first line is
split on every comma and each header is trimmed; every later line is split
with the quote-aware regex and mapped positionally onto the headers. -/
def parseCSV (text : String) : List String × List CSVRow :=
  let lines := splitOnChar '\n' (normalizeNewlines (trimChars text.data))
  if lines.length < 2 then ([], [])
  else
    match lines with
    | [] => ([], [])
    | l0 :: rest =>
      let headers := (splitOnChar ',' l0).map (fun h => String.mk (trimChars h))
      let rows := rest.map (fun line => buildRow headers (splitRegexComma line))
      (headers, rows)

/-! ## Row outcomes (`ResultRow`, source lines 143-147) -/

/-- The `status` tag of a `ResultRow`. -/
inductive RStatus
  | pending
  | processing
  | completed
  | error
deriving DecidableEq, Repr

/-- `interface ResultRow { status; keywords: string[]; error?: string }`. -/
structure ResultRow where
  status : RStatus
  keywords : List String
  error : Option String
deriving DecidableEq, Repr

/-- The outcome every row starts in:
`Array(parsed.rows.length).fill({ status: 'pending', keywords: [] })`. -/
def initRow : ResultRow := ⟨.pending, [], none⟩

/-- A terminal outcome: `completed` or `error`. -/
def TerminalRow (r : ResultRow) : Prop :=
  r.status = .completed ∨ r.status = .error

/-! ## The external completion boundary and `generateKeywordsFromApi`
(source lines 152-202) -/

/-- Observable behaviour of one `ai.models.generateContent` +
`JSON.parse(response.text)` round trip:
either a parsed object whose truthy `keywords` field is `some` list (and
`none` when `result` or `result.keywords` is falsy), or a thrown `Error`
carrying a message, or a thrown non-`Error` value. -/
inductive ApiBehavior
  | returns (keywordsField : Option (List String))
  | throwsError (message : String)
  | throwsOther
deriving DecidableEq, Repr

/-- A failure as seen by the `catch` in the scheduling effect: `some m` for an
`Error` with message `m`, `none` for a thrown non-`Error` value. -/
abbrev Failure := Option String

/-- `generateKeywordsFromApi` outcome: `if (result && result.keywords) return
result.keywords; else throw new Error('Could not parse keywords from the
response.')`; a throw from the call itself propagates unchanged. -/
def generateKeywordsFromApi : ApiBehavior → Except Failure (List String)
  | .returns (some kws) => .ok kws
  | .returns none => .error (some "Could not parse keywords from the response.")
  | .throwsError m => .error (some m)
  | .throwsOther => .error none

/-- `const errorMessage = err instanceof Error ? err.message : 'Unknown error'`
(source line 328). -/
def errorMessageOf : Failure → String
  | some m => m
  | none => "Unknown error"

/-! ## Prompt construction inside `generateKeywordsFromApi`
(source lines 155-175) -/

/-- `const RESERVED_KEYS = ['filename', 'title', 'content']` (source line 150). -/
def RESERVED_KEYS : List String := ["filename", "title", "content"]

/-- `const title = row.title || ''` (case-sensitive property access). -/
def titleOf (row : CSVRow) : String := rowGet row "title"

/-- `const content = row.content || ''`. -/
def contentOf (row : CSVRow) : String := rowGet row "content"

/-- `key.toLowerCase()` character by character (ASCII case mapping, which
covers the reserved-key comparison the source performs). -/
def jsToLower (s : String) : String := ⟨s.data.map Char.toLower⟩

/-- `Object.entries(row).filter(([key, value]) =>
!RESERVED_KEYS.includes(key.toLowerCase()) && value)` (source lines 158-160):
keep the entries whose lowercased key is not reserved and whose value is
truthy (a nonempty string). -/
def attributesOf (row : CSVRow) : CSVRow :=
  row.filter (fun kv => !(RESERVED_KEYS.contains (jsToLower kv.1)) && kv.2 ≠ "")

/-- `attributesText` (source lines 170-173). -/
def attributesText (row : CSVRow) : String :=
  if attributesOf row ≠ [] then
    "\n\nAttributes:\n" ++
      String.intercalate "\n"
        ((attributesOf row).map (fun kv => "- " ++ kv.1 ++ ": " ++ kv.2))
  else ""

/-- `userPrompt` (source line 175). -/
def userPrompt (row : CSVRow) : String :=
  "Generate keywords for the following document:\n\nTitle: " ++ titleOf row ++
    attributesText row ++ "\n\nDescription: " ++ contentOf row

/-! ## The deduplicated keyword view (`allKeywords`, source lines 278-282) -/

/-- `Array.from(new Set(list))`: deduplicate keeping the first occurrence of
each element, in order. `seen` accumulates the elements already emitted. -/
def jsSetDedup (seen : List String) : List String → List String
  | [] => []
  | x :: xs => if x ∈ seen then jsSetDedup seen xs else x :: jsSetDedup (x :: seen) xs

/-- `allKeywords`: the completed rows with a nonempty keyword list,
flat-mapped to their keywords, deduplicated preserving first occurrence. -/
def allKeywords (results : List ResultRow) : List String :=
  jsSetDedup []
    ((results.filter (fun r => r.status = .completed ∧ r.keywords.length > 0)).flatMap
      (fun r => r.keywords))

/-! ## Export (`handleDownload`, source lines 347-356) -/

/-- `value.replace(/"/g, '""')`: double every embedded double quote. -/
def escQ : List Char → List Char
  | [] => []
  | c :: rest => if c = '"' then '"' :: '"' :: escQ rest else c :: escQ rest

/-- An original field as serialized by `handleDownload`:
`"${(row[h] || '').replace(/"/g, '""')}"`. -/
def quoteEscapeField (s : String) : String :=
  ⟨'"' :: (escQ s.data ++ ['"'])⟩

/-- A derived field as serialized by `handleDownload`: wrapped in double
quotes with no escaping of the content (`"${keywords}"`, `"${status}"`). -/
def quoteWrapField (s : String) : String :=
  ⟨'"' :: (s.data ++ ['"'])⟩

/-- The status tag as it prints into the CSV (`result.status` for
non-errors). -/
def statusName : RStatus → String
  | .pending => "pending"
  | .processing => "processing"
  | .completed => "completed"
  | .error => "error"

/-- The `Status` column value:
`result.status === 'error' ? `Error: ${result.error}` : result.status`
(an absent `error` field interpolates as `undefined`). -/
def statusText (r : ResultRow) : String :=
  if r.status = .error then "Error: " ++ (r.error.getD "undefined")
  else statusName r.status

/-- The fields of the exported header row: `[...csvData.headers, 'Keywords',
'Status']`, serialized verbatim. -/
def exportHeaderFields (headers : List String) : List String :=
  headers ++ ["Keywords", "Status"]

/-- The fields of one exported data row:
`[...originalValues, `"${keywords}"`, `"${status}"`]` where
`originalValues = csvData.headers.map(h => `"${(row[h] || '').replace(/"/g, '""')}"`)`. -/
def exportRowFields (headers : List String) (row : CSVRow) (result : ResultRow) :
    List String :=
  headers.map (fun h => quoteEscapeField (rowGet row h)) ++
    [quoteWrapField (String.intercalate "; " result.keywords),
     quoteWrapField (statusText result)]

/-- `csvContent` (source line 356): the joined header line followed by the
joined data lines, newline separated. -/
def csvContent (headers : List String) (rows : List CSVRow)
    (results : List ResultRow) : String :=
  String.intercalate "\n"
    (String.intercalate "," (exportHeaderFields headers) ::
      rows.enum.map (fun p =>
        String.intercalate "," (exportRowFields headers p.2 (results.getD p.1 initRow))))

/-! ## File upload (`handleFileChange`, source lines 234-256) -/

/-- The pieces of a selected `File` the handler inspects: its MIME type,
its name, and the text the `FileReader` delivers. -/
structure FileInput where
  mime : String
  name : String
  content : String
deriving DecidableEq, Repr

/-- The component state `handleFileChange` touches. -/
structure UploadState where
  file : Option FileInput
  headers : List String
  rows : List CSVRow
  results : List ResultRow
  uploadError : Option String
deriving DecidableEq, Repr

/-- `handleFileChange` as one composite step (selection then `reader.onload`):
a non-CSV MIME type only sets the error; otherwise the file reference is
replaced and the error cleared first, then the text is parsed; an empty parse
sets the error and returns with `csvData`/`results` untouched; otherwise
`csvData` is replaced and `results` reinitialized to all-pending. -/
def handleFileChange (s : UploadState) (f : FileInput) : UploadState :=
  if f.mime ≠ "text/csv" then
    { s with uploadError := some "Please upload a valid CSV file." }
  else
    let s1 : UploadState := { s with file := some f, uploadError := none }
    let parsed := parseCSV f.content
    if parsed.2.length = 0 ∨ parsed.1.length = 0 then
      { s1 with uploadError := some "CSV is empty or invalid." }
    else
      { s1 with headers := parsed.1, rows := parsed.2,
                results := List.replicate parsed.2.length initRow }

/-! ## The run state machine (`BulkGenerator`, source lines 223-345)

The scheduling `useEffect` (lines 298-345) has dependencies
`[status, currentIndex, csvData.rows]`; its cleanup sets the closure flag
`isCancelled`, so a status or cursor change cancels the in-flight call:
the arriving result is then discarded without any state write. We model the
component as an explicit machine over a fixed loaded table of `R` rows.
`inFlight = some i` records a non-cancelled effect awaiting the external
call for row `i`; every transition that changes the effect dependencies
clears it (the cleanup), and re-fires the effect synchronously. -/

/-- `status` of the component: `'idle' | 'running' | 'paused' | 'done'`. -/
inductive RunStatus
  | idle
  | running
  | paused
  | done
deriving DecidableEq, Repr

/-- The run-relevant component state. -/
structure MState where
  results : List ResultRow
  status : RunStatus
  currentIndex : Nat
  inFlight : Option Nat
deriving DecidableEq, Repr

/-- The state right after a successful upload of a table with `R` data rows:
all outcomes `pending`, cursor `0`, status `idle`, nothing in flight. -/
def initLoaded (R : Nat) : MState :=
  ⟨List.replicate R initRow, .idle, 0, none⟩

/-- One firing of the scheduling effect: not `running` returns immediately;
`running` with the cursor past the last row sets `done`; otherwise the
effect marks `results[currentIndex]` as `processing`
(`{...newResults[currentIndex], status: 'processing'}`) and issues the
external call, which we record as the in-flight index. -/
def fireEffect (R : Nat) (s : MState) : MState :=
  if s.status = .running then
    if s.currentIndex < R then
      { s with
        results := s.results.set s.currentIndex
          { s.results.getD s.currentIndex initRow with status := .processing },
        inFlight := some s.currentIndex }
    else { s with status := .done }
  else s

/-- The `!isCancelled` body run when the call for row `i` comes back with
behaviour `b`: write the terminal outcome at the closure's `currentIndex`
(`{status: 'completed', keywords}` or `{status: 'error', keywords: [],
error}`), then `setCurrentIndex(prev => prev + 1)` in the `finally`. -/
def writeOutcome (results : List ResultRow) (i : Nat) (b : ApiBehavior) :
    List ResultRow :=
  match generateKeywordsFromApi b with
  | .ok kws => results.set i ⟨.completed, kws, none⟩
  | .error e => results.set i ⟨.error, [], some (errorMessageOf e)⟩

/-- Events of the machine. `toggle` is the Start/Pause/Resume button
(`toggleProcessing`, lines 270-276); `arrive b` is the return of the
current non-cancelled call with behaviour `b`; `staleArrive b` is the
return of a call whose effect was cancelled (`isCancelled` already set). -/
inductive Ev
  | toggle
  | arrive (b : ApiBehavior)
  | staleArrive (b : ApiBehavior)
deriving DecidableEq, Repr

/-- One machine step. Changing `status` or `currentIndex` runs the previous
effect's cleanup (cancelling any in-flight call) and re-fires the effect;
a stale arrival is discarded by the `isCancelled` checks and mutates
nothing. -/
def step (R : Nat) (s : MState) : Ev → MState
  | .toggle =>
    if s.status = .running then
      fireEffect R { s with status := .paused, inFlight := none }
    else
      fireEffect R { s with status := .running, inFlight := none }
  | .arrive b =>
    match s.inFlight with
    | some i =>
      fireEffect R
        { s with results := writeOutcome s.results i b,
                 currentIndex := s.currentIndex + 1,
                 inFlight := none }
    | none => s
  | .staleArrive _ => s

/-- Run a list of events from a state. -/
def runEv (R : Nat) (s : MState) (evs : List Ev) : MState :=
  evs.foldl (step R) s

/-- A state of a run over a loaded table of `R` rows: reachable from the
freshly loaded state by button presses and call arrivals (no reset, which
discards the table wholesale). -/
def Reachable (R : Nat) (s : MState) : Prop :=
  ∃ evs : List Ev, runEv R (initLoaded R) evs = s

/-- The invariant maintained by every event of a run over a table of `R`
rows: at most `R` outcomes, rows before the cursor are terminal, rows after
it are untouched, the row at a running cursor is being processed, the
in-flight call (when not cancelled) is the cursor's own, and `done` means
the cursor has passed the last row. -/
structure Inv (R : Nat) (s : MState) : Prop where
  len : s.results.length = R
  cursorLe : s.currentIndex ≤ R
  runningLt : s.status = RunStatus.running → s.currentIndex < R
  terminalBefore : ∀ j, j < s.currentIndex → TerminalRow (s.results.getD j initRow)
  pendingAfter : ∀ j, s.currentIndex < j → j < R → s.results.getD j initRow = initRow
  processingAtCursor : s.status = RunStatus.running →
    (s.results.getD s.currentIndex initRow).status = RStatus.processing
  cursorRow : s.currentIndex < R →
    (s.results.getD s.currentIndex initRow).status = RStatus.processing ∨
      s.results.getD s.currentIndex initRow = initRow
  inFlightOk : ∀ i, s.inFlight = some i →
    i = s.currentIndex ∧ s.status = RunStatus.running
  doneGe : s.status = RunStatus.done → R ≤ s.currentIndex

/-! ## The serialization shape the spec claims for exported fields -/

/-- `wrappedEscapedAux rest` holds when `'"' :: rest` is a double-quote
wrapped field whose interior double quotes are all doubled: `rest` must end
in a closing quote and any interior quote must come as an adjacent pair. -/
def wrappedEscapedAux : List Char → Bool
  | [] => false
  | c :: rest =>
    if c = '"' then
      match rest with
      | [] => true
      | c2 :: rest2 => if c2 = '"' then wrappedEscapedAux rest2 else false
    else wrappedEscapedAux rest

/-- A serialized field that is wrapped in double quotes with every embedded
double quote doubled (the shape §4.4 of the spec asserts for every exported
field). -/
def wrappedEscaped (f : String) : Bool :=
  match f.data with
  | '"' :: rest => wrappedEscapedAux rest
  | _ => false

/-- The field starts with a double quote. -/
def startsWithDQ (f : String) : Bool := startsWithQuote f.data

/-- The field ends with a double quote. -/
def endsWithDQ (f : String) : Bool := startsWithQuote f.data.reverse

/-- The claim of C3 evaluated at one component state: every field of the
exported header row and of every exported data row is quote wrapped with
embedded quotes doubled. -/
def c3ClaimAt (headers : List String) (rows : List CSVRow)
    (results : List ResultRow) : Bool :=
  (exportHeaderFields headers).all wrappedEscaped &&
    rows.enum.all (fun p =>
      (exportRowFields headers p.2 (results.getD p.1 initRow)).all wrappedEscaped)

end KeywordsGen

namespace KeywordsGen

/-! ## List helper lemmas -/

theorem getD_set_self {α : Type} (l : List α) (i : Nat) (a d : α) (h : i < l.length) :
    (l.set i a).getD i d = a := by
  simp [List.getD_eq_getElem?_getD, List.getElem?_set_self h]

theorem getD_set_ne {α : Type} (l : List α) {i j : Nat} (a d : α) (h : i ≠ j) :
    (l.set i a).getD j d = l.getD j d := by
  simp [List.getD_eq_getElem?_getD, List.getElem?_set_ne h]

theorem getD_replicate {α : Type} (R j : Nat) (x d : α) :
    (List.replicate R x).getD j d = if j < R then x else d := by
  simp only [List.getD_eq_getElem?_getD, List.getElem?_replicate]
  split <;> simp

theorem splitOnChar_ne_nil (sep : Char) (s : List Char) : splitOnChar sep s ≠ [] := by
  cases s with
  | nil => simp [splitOnChar]
  | cons c rest =>
    simp only [splitOnChar]
    split
    · simp
    · split <;> simp

theorem mem_splitOnChar_not_sep {sep : Char} :
    ∀ {s p : List Char}, p ∈ splitOnChar sep s → sep ∉ p := by
  intro s
  induction s with
  | nil =>
    intro p hp
    simp [splitOnChar] at hp
    simp [hp]
  | cons c rest ih =>
    intro p hp
    simp only [splitOnChar] at hp
    by_cases hc : c = sep
    · rw [if_pos hc] at hp
      rcases List.mem_cons.mp hp with hp | hp
      · simp [hp]
      · exact ih hp
    · rw [if_neg hc] at hp
      cases hsp : splitOnChar sep rest with
      | nil => exact absurd hsp (splitOnChar_ne_nil sep rest)
      | cons f fs =>
        have hf : f ∈ splitOnChar sep rest := by
          rw [hsp]; exact List.mem_cons_self f fs
        have hfs : ∀ q ∈ fs, q ∈ splitOnChar sep rest := by
          intro q hq; rw [hsp]; exact List.mem_cons_of_mem f hq
        rw [hsp] at hp
        simp only [List.mem_cons] at hp
        rcases hp with hp | hp
        · subst hp
          intro hmem
          rcases List.mem_cons.mp hmem with h | h
          · exact hc h.symm
          · exact ih hf h
        · exact ih (hfs p hp)

theorem mem_trimChars {x : Char} {l : List Char} (h : x ∈ trimChars l) : x ∈ l := by
  unfold trimChars at h
  rw [List.mem_reverse] at h
  have h2 := (List.dropWhile_sublist (l := (l.dropWhile isWS).reverse) isWS).mem h
  rw [List.mem_reverse] at h2
  exact (List.dropWhile_sublist (l := l) isWS).mem h2

theorem dropWhile_dropWhile (p : Char → Bool) (l : List Char) :
    (l.dropWhile p).dropWhile p = l.dropWhile p := by
  induction l with
  | nil => simp
  | cons a l ih =>
    by_cases h : p a
    · simp [List.dropWhile_cons, h, ih]
    · simp [List.dropWhile_cons, h]

theorem head?_dropWhile_false {p : Char → Bool} :
    ∀ {l : List Char} {a : Char}, (l.dropWhile p).head? = some a → p a = false := by
  intro l
  induction l with
  | nil => intro a h; simp at h
  | cons b l ih =>
    intro a h
    by_cases hb : p b
    · rw [List.dropWhile_cons, if_pos hb] at h
      exact ih h
    · rw [List.dropWhile_cons, if_neg hb] at h
      simp only [List.head?_cons, Option.some.injEq] at h
      subst h
      simpa using hb

theorem getLast?_dropWhile_ne_nil {p : Char → Bool} :
    ∀ {l : List Char}, l.dropWhile p ≠ [] → (l.dropWhile p).getLast? = l.getLast? := by
  intro l
  induction l with
  | nil => intro h; simp at h
  | cons a l ih =>
    intro h
    by_cases ha : p a
    · rw [List.dropWhile_cons, if_pos ha] at h ⊢
      have hl : l ≠ [] := by
        intro hnil
        rw [hnil] at h
        simp at h
      rw [ih h]
      cases l with
      | nil => exact absurd rfl hl
      | cons b t => simp [List.getLast?_cons_cons]
    · rw [List.dropWhile_cons, if_neg ha]

theorem trimChars_trimChars (l : List Char) : trimChars (trimChars l) = trimChars l := by
  unfold trimChars
  have h1 : ((l.dropWhile isWS).reverse.dropWhile isWS).reverse.dropWhile isWS =
      ((l.dropWhile isWS).reverse.dropWhile isWS).reverse := by
    cases hnr : ((l.dropWhile isWS).reverse.dropWhile isWS).reverse with
    | nil => simp
    | cons a t =>
      have hne : (l.dropWhile isWS).reverse.dropWhile isWS ≠ [] := by
        intro hnil
        rw [hnil] at hnr
        simp at hnr
      have hhead : ((l.dropWhile isWS).reverse.dropWhile isWS).reverse.head? = some a := by
        rw [hnr]; rfl
      have hlast : ((l.dropWhile isWS).reverse.dropWhile isWS).getLast? = some a := by
        rw [← List.head?_reverse]; exact hhead
      have hlast2 : (l.dropWhile isWS).reverse.getLast? = some a := by
        rw [← getLast?_dropWhile_ne_nil hne]; exact hlast
      have hmh : (l.dropWhile isWS).head? = some a := by
        rw [← List.getLast?_reverse]; exact hlast2
      have hws : isWS a = false := head?_dropWhile_false hmh
      rw [List.dropWhile_cons, if_neg (by simp [hws])]
  rw [h1, List.reverse_reverse, dropWhile_dropWhile]

end KeywordsGen

namespace KeywordsGen

/-! ## Deduplication lemmas -/

theorem mem_jsSetDedup : ∀ (l seen : List String) (x : String),
    x ∈ jsSetDedup seen l ↔ x ∈ l ∧ x ∉ seen := by
  intro l
  induction l with
  | nil => intro seen x; simp [jsSetDedup]
  | cons a l ih =>
    intro seen x
    simp only [jsSetDedup]
    by_cases ha : a ∈ seen
    · rw [if_pos ha, ih]
      constructor
      · rintro ⟨hx, hns⟩
        exact ⟨List.mem_cons_of_mem a hx, hns⟩
      · rintro ⟨hx, hns⟩
        rcases List.mem_cons.mp hx with rfl | hx
        · exact absurd ha hns
        · exact ⟨hx, hns⟩
    · rw [if_neg ha]
      constructor
      · intro hx
        rcases List.mem_cons.mp hx with rfl | hx
        · exact ⟨List.mem_cons_self _ _, ha⟩
        · rcases (ih _ _).mp hx with ⟨hl, hns⟩
          exact ⟨List.mem_cons_of_mem a hl, fun h => hns (List.mem_cons_of_mem a h)⟩
      · rintro ⟨hx, hns⟩
        rcases List.mem_cons.mp hx with rfl | hx
        · exact List.mem_cons_self x _
        · by_cases hxa : x = a
          · rw [hxa]; exact List.mem_cons_self a _
          · refine List.mem_cons_of_mem a ((ih _ _).mpr ⟨hx, ?_⟩)
            intro h
            rcases List.mem_cons.mp h with h | h
            · exact hxa h
            · exact hns h

theorem nodup_jsSetDedup : ∀ (l seen : List String), (jsSetDedup seen l).Nodup := by
  intro l
  induction l with
  | nil => intro seen; simp [jsSetDedup]
  | cons a l ih =>
    intro seen
    simp only [jsSetDedup]
    by_cases ha : a ∈ seen
    · rw [if_pos ha]; exact ih seen
    · rw [if_neg ha]
      refine List.nodup_cons.mpr ⟨?_, ih _⟩
      intro hmem
      rcases (mem_jsSetDedup _ _ _).mp hmem with ⟨_, hns⟩
      exact hns (List.mem_cons_self a seen)

/-! ## Claim theorems: parser and aggregator -/

/-- C7: parsing a table whose data row contains a double-quoted field with an
embedded comma (the value `"Acme, Inc."`) yields that field as the single
value `Acme, Inc.` in the corresponding record, with the surrounding quotes
stripped, rather than split into two fields. -/
theorem c7_quoted_comma_field :
    (parseCSV "fileName,company\ndoc1.csv,\"Acme, Inc.\"").2 =
      [[("fileName", "doc1.csv"), ("company", "Acme, Inc.")]] ∧
    rowGet (((parseCSV "fileName,company\ndoc1.csv,\"Acme, Inc.\"").2).getD 0 [])
      "company" = "Acme, Inc." := by decide

/-- C4 is false on the code: the header line is split with a plain
`split(',')`, so a double-quoted header field containing a comma is split at
the embedded comma and its quotes are not stripped; at the concrete input
`a, "b,c" ` + a data line, the headers are `a`, `"b`, `c"` instead of the
claimed `a`, `b,c`. -/
theorem c4_counterexample :
    (parseCSV "a, \"b,c\" \nx,y,z").1 ≠ ["a", "b,c"] ∧
    (parseCSV "a, \"b,c\" \nx,y,z").1 = ["a", "\"b", "c\""] := by decide

/-- C4 amended: the header line is split at every comma — also at commas
inside double-quoted fields — and surrounding quotes are not stripped from
header names; every header field is whitespace-trimmed. Formally: no parsed
header contains a comma, every parsed header is trim-stable, and on the
concrete quoted-header input the quotes survive while the field is split. -/
theorem c4_amended_header_split :
    (∀ (text : String), ∀ h ∈ (parseCSV text).1,
      (',' ∉ h.data) ∧ trimChars h.data = h.data) ∧
    (parseCSV "a, \"b,c\" \nx,y,z").1 = ["a", "\"b", "c\""] := by
  constructor
  · intro text h hmem
    simp only [parseCSV] at hmem
    by_cases hlt : (splitOnChar '\n' (normalizeNewlines (trimChars text.data))).length < 2
    · simp [if_pos hlt] at hmem
    · rw [if_neg hlt] at hmem
      cases hl : splitOnChar '\n' (normalizeNewlines (trimChars text.data)) with
      | nil => rw [hl] at hmem; simp at hmem
      | cons l0 rest =>
        rw [hl] at hmem
        simp only [List.mem_map] at hmem
        obtain ⟨piece, hpiece, rfl⟩ := hmem
        constructor
        · intro hcm
          have hmemtrim : ',' ∈ trimChars piece := hcm
          exact mem_splitOnChar_not_sep hpiece (mem_trimChars hmemtrim)
        · exact trimChars_trimChars piece
  · decide

theorem c4_amended_witness :
    ("ab" ∈ (parseCSV "ab,cd\nx,y").1) ∧
    ((',' ∉ ("ab" : String).data) ∧
      trimChars ("ab" : String).data = ("ab" : String).data) :=
  ⟨by decide, c4_amended_header_split.1 "ab,cd\nx,y" "ab" (by decide)⟩

/-- C6: the deduplicated keyword view contains exactly the distinct keyword
strings occurring in at least one `completed` outcome, each exactly once. -/
theorem c6_dedup_view_exact (results : List ResultRow) :
    (∀ k, k ∈ allKeywords results ↔
      ∃ r ∈ results, r.status = RStatus.completed ∧ k ∈ r.keywords) ∧
    (allKeywords results).Nodup := by
  constructor
  · intro k
    unfold allKeywords
    rw [mem_jsSetDedup]
    simp only [List.mem_flatMap, List.mem_filter, List.not_mem_nil, not_false_iff, and_true,
      decide_eq_true_eq]
    constructor
    · rintro ⟨r, ⟨hr, hst, _⟩, hk⟩
      exact ⟨r, hr, hst, hk⟩
    · rintro ⟨r, hr, hst, hk⟩
      exact ⟨r, ⟨hr, hst, List.length_pos_of_mem hk⟩, hk⟩
  · exact nodup_jsSetDedup _ []

end KeywordsGen

namespace KeywordsGen

/-! ## Claim theorems: prompt construction and upload -/

theorem rowGet_eq_empty {row : CSVRow} {k : String}
    (h : ∀ kv ∈ row, kv.1 ≠ k) : rowGet row k = "" := by
  unfold rowGet
  rw [List.find?_eq_none.mpr (by intro kv hkv; simpa using h kv hkv)]

/-- C10: reserved-field exclusion is case-insensitive while the
title/content lookup is case-sensitive: a column whose name is a case
variant of `title` or `content` is excluded from the attribute list, and —
when the row has no exact lowercase `title`/`content` key — the prompt's
title and description are empty, so the value is dropped from the request
entirely. -/
theorem c10_case_variant_dropped (row : CSVRow) (k v : String)
    (hk : jsToLower k = "title" ∨ jsToLower k = "content")
    (_hmem : (k, v) ∈ row)
    (hnt : ∀ kv ∈ row, kv.1 ≠ "title")
    (hnc : ∀ kv ∈ row, kv.1 ≠ "content") :
    ((k, v) ∉ attributesOf row) ∧ titleOf row = "" ∧ contentOf row = "" := by
  have hres : jsToLower k ∈ RESERVED_KEYS := by
    rcases hk with hk | hk <;> rw [hk] <;> simp [RESERVED_KEYS]
  refine ⟨?_, rowGet_eq_empty hnt, rowGet_eq_empty hnc⟩
  intro hmemattr
  have hcondition := (List.mem_filter.mp hmemattr).2
  simp only [Bool.and_eq_true, Bool.not_eq_true', decide_eq_true_eq] at hcondition
  have hnotmem : jsToLower k ∉ RESERVED_KEYS := by simpa using hcondition.1
  exact hnotmem hres

theorem c10_witness :
    (("Title", "X") ∉ attributesOf [("Title", "X")]) ∧
    titleOf [("Title", "X")] = "" ∧ contentOf [("Title", "X")] = "" :=
  c10_case_variant_dropped [("Title", "X")] "Title" "X"
    (Or.inl (by decide)) (by decide) (by decide) (by decide)

/-- C9: when a newly selected CSV file parses to an empty result, the
previously loaded headers, rows and outcomes are left unchanged while the
selected-file reference has already been replaced by the new file. -/
theorem c9_failed_upload_keeps_state (s : UploadState) (f : FileInput)
    (hmime : f.mime = "text/csv")
    (hempty : (parseCSV f.content).2.length = 0 ∨ (parseCSV f.content).1.length = 0) :
    handleFileChange s f =
      { s with file := some f, uploadError := some "CSV is empty or invalid." } := by
  unfold handleFileChange
  rw [if_neg (by simp [hmime])]
  rw [if_pos hempty]

theorem c9_witness :
    handleFileChange
      ⟨some ⟨"text/csv", "old.csv", "fileName\na"⟩, ["fileName"],
        [[("fileName", "a")]], [initRow], none⟩
      ⟨"text/csv", "new.csv", ""⟩ =
      ⟨some ⟨"text/csv", "new.csv", ""⟩, ["fileName"],
        [[("fileName", "a")]], [initRow], some "CSV is empty or invalid."⟩ :=
  c9_failed_upload_keeps_state
    ⟨some ⟨"text/csv", "old.csv", "fileName\na"⟩, ["fileName"],
      [[("fileName", "a")]], [initRow], none⟩
    ⟨"text/csv", "new.csv", ""⟩ rfl (by decide)

/-! ## Claim theorems: export quoting -/

/-- C3 is false on the code: at the concrete state with one original column
`a`, one data row, and a completed outcome whose keyword contains a double
quote, not every exported field is quote-wrapped with doubled quotes — the
header-row fields are unquoted and the keyword field's embedded quote is
not doubled. -/
theorem c3_counterexample :
    c3ClaimAt ["a"] [[("a", "x")]] [⟨.completed, ["k\"w"], none⟩] = false := by decide

theorem wrappedEscapedAux_escQ (l : List Char) :
    wrappedEscapedAux (escQ l ++ ['"']) = true := by
  induction l with
  | nil => decide
  | cons c l ih =>
    by_cases hc : c = '"'
    · subst hc
      simp [escQ, wrappedEscapedAux, ih]
    · simp only [escQ, if_neg hc, List.cons_append]
      rw [wrappedEscapedAux.eq_def]
      simp [hc, ih]

theorem wrappedEscaped_quoteEscapeField (s : String) :
    wrappedEscaped (quoteEscapeField s) = true :=
  wrappedEscapedAux_escQ s.data

theorem startsWithQuote_reverse_wrap (l : List Char) :
    startsWithQuote (('"' :: (l ++ ['"'])).reverse) = true := by
  simp [List.reverse_cons, List.reverse_append, startsWithQuote]

theorem escQ_length (l : List Char) : (escQ l).length = l.length + countQuotes l := by
  induction l with
  | nil => rfl
  | cons c r ih =>
    by_cases hc : c = '"'
    · subst hc
      have h1 : escQ ('"' :: r) = '"' :: '"' :: escQ r := by simp [escQ]
      have h2 : countQuotes ('"' :: r) = countQuotes r + 1 := by
        simp [countQuotes, List.countP_cons]
      rw [h1, h2]
      simp only [List.length_cons, ih]
      omega
    · have h1 : escQ (c :: r) = c :: escQ r := by simp [escQ, hc]
      have h2 : countQuotes (c :: r) = countQuotes r := by
        simp [countQuotes, List.countP_cons, hc]
      rw [h1, h2]
      simp only [List.length_cons, ih]
      omega

theorem quoteWrap_ne_quoteEscape (s : String) (h : '"' ∈ s.data) :
    quoteWrapField s ≠ quoteEscapeField s := by
  intro heq
  have hdata : ('"' :: (s.data ++ ['"'])) = ('"' :: (escQ s.data ++ ['"'])) :=
    congrArg String.data heq
  have hlen := congrArg List.length hdata
  simp [escQ_length] at hlen
  have hpos : 0 < countQuotes s.data :=
    List.countP_pos_iff.mpr ⟨'"', h, by simp⟩
  omega

/-- C3 amended: in every exported data row the original fields are
quote-wrapped with embedded double quotes doubled; the two derived fields
(`Keywords`, `Status`) are exactly the unescaped quote-wraps of the joined
keywords and the status text — quote-wrapped, but an embedded double quote
in them is NOT doubled, so whenever the content contains a double quote the
emitted field differs from the properly escaped form; header-row fields are
the raw column names plus `Keywords` and `Status`, written verbatim and
unquoted — all shown concretely in the full export of a one-column state
whose keyword contains a double quote. -/
theorem c3_amended_export_quoting (headers : List String) (row : CSVRow)
    (res : ResultRow) :
    (∀ f ∈ (exportRowFields headers row res).take headers.length,
      wrappedEscaped f = true) ∧
    (∀ f ∈ exportRowFields headers row res,
      startsWithDQ f = true ∧ endsWithDQ f = true) ∧
    ((exportRowFields headers row res).drop headers.length =
      [quoteWrapField (String.intercalate "; " res.keywords),
        quoteWrapField (statusText res)]) ∧
    (∀ s : String, '"' ∈ s.data → quoteWrapField s ≠ quoteEscapeField s) ∧
    (exportHeaderFields headers = headers ++ ["Keywords", "Status"]) ∧
    (csvContent ["a"] [[("a", "x")]] [⟨RStatus.completed, ["k\"w"], none⟩] =
      "a,Keywords,Status\n\"x\",\"k\"w\",\"completed\"") := by
  refine ⟨?_, ?_, ?_, ?_, rfl, by decide⟩
  · intro f hf
    unfold exportRowFields at hf
    have hlen : headers.length =
        (headers.map (fun h => quoteEscapeField (rowGet row h))).length := by simp
    rw [hlen, List.take_left] at hf
    obtain ⟨h, _, rfl⟩ := List.mem_map.mp hf
    exact wrappedEscaped_quoteEscapeField _
  · intro f hf
    unfold exportRowFields at hf
    rcases List.mem_append.mp hf with hf | hf
    · obtain ⟨h, _, rfl⟩ := List.mem_map.mp hf
      exact ⟨rfl, startsWithQuote_reverse_wrap _⟩
    · rcases List.mem_cons.mp hf with rfl | hf
      · exact ⟨rfl, startsWithQuote_reverse_wrap _⟩
      · rcases List.mem_cons.mp hf with rfl | hf
        · exact ⟨rfl, startsWithQuote_reverse_wrap _⟩
        · simp at hf
  · unfold exportRowFields
    have hlen : headers.length =
        (headers.map (fun h => quoteEscapeField (rowGet row h))).length := by simp
    rw [hlen, List.drop_left]
  · intro s hs
    exact quoteWrap_ne_quoteEscape s hs

theorem c3_amended_witness :
    ("\"x\"" ∈ (exportRowFields ["a"] [("a", "x")] ⟨.completed, ["k"], none⟩).take 1) ∧
    wrappedEscaped "\"x\"" = true ∧
    ('"' ∈ ("k\"w" : String).data) ∧
    quoteWrapField "k\"w" ≠ quoteEscapeField "k\"w" :=
  ⟨by decide,
    (c3_amended_export_quoting ["a"] [("a", "x")] ⟨.completed, ["k"], none⟩).1
      "\"x\"" (by decide),
    by decide,
    (c3_amended_export_quoting ["a"] [("a", "x")] ⟨.completed, ["k"], none⟩).2.2.2.1
      "k\"w" (by decide)⟩

end KeywordsGen

namespace KeywordsGen

/-! ## Run machine lemmas -/

theorem writeOutcome_length (rs : List ResultRow) (i : Nat) (b : ApiBehavior) :
    (writeOutcome rs i b).length = rs.length := by
  unfold writeOutcome
  cases generateKeywordsFromApi b <;> simp

theorem writeOutcome_getD_ne (rs : List ResultRow) {i j : Nat} (b : ApiBehavior)
    (d : ResultRow) (h : i ≠ j) :
    (writeOutcome rs i b).getD j d = rs.getD j d := by
  unfold writeOutcome
  cases generateKeywordsFromApi b <;> exact getD_set_ne _ _ _ h

theorem writeOutcome_getD_terminal (rs : List ResultRow) {i : Nat} (b : ApiBehavior)
    (d : ResultRow) (h : i < rs.length) :
    TerminalRow ((writeOutcome rs i b).getD i d) := by
  unfold writeOutcome
  cases generateKeywordsFromApi b with
  | ok kws => rw [getD_set_self _ _ _ _ h]; exact Or.inl rfl
  | error e => rw [getD_set_self _ _ _ _ h]; exact Or.inr rfl

theorem writeOutcome_getD_error (rs : List ResultRow) {i : Nat} (b : ApiBehavior)
    (e : Failure) (d : ResultRow) (h : i < rs.length)
    (herr : generateKeywordsFromApi b = Except.error e) :
    (writeOutcome rs i b).getD i d = ⟨RStatus.error, [], some (errorMessageOf e)⟩ := by
  unfold writeOutcome
  rw [herr]
  exact getD_set_self _ _ _ _ h

theorem fireEffect_currentIndex (R : Nat) (t : MState) :
    (fireEffect R t).currentIndex = t.currentIndex := by
  unfold fireEffect
  split
  · split <;> rfl
  · rfl

theorem inv_init (R : Nat) : Inv R (initLoaded R) := by
  refine ⟨by simp [initLoaded], by simp [initLoaded], ?_, ?_, ?_, ?_, ?_, ?_, ?_⟩
  · intro h; exact absurd h (by simp [initLoaded])
  · intro j hj; exact absurd hj (by simp [initLoaded])
  · intro j hj hjR
    simp only [initLoaded, getD_replicate]
    rw [if_pos hjR]
  · intro h; exact absurd h (by simp [initLoaded])
  · intro hR
    right
    simp only [initLoaded, getD_replicate]
    simp
  · intro i hi; exact absurd hi (by simp [initLoaded])
  · intro h; exact absurd h (by simp [initLoaded])

theorem inv_fire (R : Nat) (t : MState)
    (hlen : t.results.length = R)
    (hle : t.currentIndex ≤ R)
    (hterm : ∀ j, j < t.currentIndex → TerminalRow (t.results.getD j initRow))
    (hpend : ∀ j, t.currentIndex < j → j < R → t.results.getD j initRow = initRow)
    (hcrow : t.currentIndex < R →
      (t.results.getD t.currentIndex initRow).status = RStatus.processing ∨
        t.results.getD t.currentIndex initRow = initRow)
    (hif : t.inFlight = none)
    (hdone : t.status = RunStatus.done → R ≤ t.currentIndex) :
    Inv R (fireEffect R t) := by
  by_cases hrun : t.status = RunStatus.running
  · by_cases hlt : t.currentIndex < R
    · have hcl : t.currentIndex < t.results.length := by rw [hlen]; exact hlt
      refine ⟨?_, ?_, ?_, ?_, ?_, ?_, ?_, ?_, ?_⟩ <;>
        simp only [fireEffect, if_pos hrun, if_pos hlt]
      · simpa using hlen
      · exact hle
      · intro _; exact hlt
      · intro j hj
        rw [getD_set_ne _ _ _ (by omega)]
        exact hterm j hj
      · intro j hj hjR
        rw [getD_set_ne _ _ _ (by omega)]
        exact hpend j hj hjR
      · intro _
        rw [getD_set_self _ _ _ _ hcl]
      · intro _
        left
        rw [getD_set_self _ _ _ _ hcl]
      · intro i hi
        simp only [Option.some.injEq] at hi
        exact ⟨hi.symm, hrun⟩
      · intro hd
        rw [hrun] at hd
        exact absurd hd (by simp)
    · refine ⟨?_, ?_, ?_, ?_, ?_, ?_, ?_, ?_, ?_⟩ <;>
        simp only [fireEffect, if_pos hrun, if_neg hlt]
      · exact hlen
      · exact hle
      · intro h; exact absurd h (by simp)
      · exact hterm
      · exact hpend
      · intro h; exact absurd h (by simp)
      · intro h; exact absurd h hlt
      · intro i hi; rw [hif] at hi; exact absurd hi (by simp)
      · intro _; omega
  · refine ⟨?_, ?_, ?_, ?_, ?_, ?_, ?_, ?_, ?_⟩ <;>
      simp only [fireEffect, if_neg hrun]
    · exact hlen
    · exact hle
    · intro h; exact absurd h hrun
    · exact hterm
    · exact hpend
    · intro h; exact absurd h hrun
    · exact hcrow
    · intro i hi; rw [hif] at hi; exact absurd hi (by simp)
    · exact hdone

theorem inv_step (R : Nat) (s : MState) (ev : Ev) (hinv : Inv R s) :
    Inv R (step R s ev) := by
  cases ev with
  | staleArrive b => exact hinv
  | toggle =>
    by_cases hrun : s.status = RunStatus.running
    · simp only [step, if_pos hrun]
      exact inv_fire R _ hinv.len hinv.cursorLe hinv.terminalBefore hinv.pendingAfter
        hinv.cursorRow rfl (by intro h; exact absurd h (by simp))
    · simp only [step, if_neg hrun]
      exact inv_fire R _ hinv.len hinv.cursorLe hinv.terminalBefore hinv.pendingAfter
        hinv.cursorRow rfl (by intro h; exact absurd h (by simp))
  | arrive b =>
    cases hif : s.inFlight with
    | none => simp only [step, hif]; exact hinv
    | some i =>
      obtain ⟨hieq, hsrun⟩ := hinv.inFlightOk i hif
      subst hieq
      have hcl : s.currentIndex < s.results.length := by
        rw [hinv.len]; exact hinv.runningLt hsrun
      have hltR : s.currentIndex < R := hinv.runningLt hsrun
      simp only [step, hif]
      apply inv_fire R
      · show (writeOutcome s.results s.currentIndex b).length = R
        rw [writeOutcome_length]; exact hinv.len
      · show s.currentIndex + 1 ≤ R
        omega
      · show ∀ j, j < s.currentIndex + 1 →
          TerminalRow ((writeOutcome s.results s.currentIndex b).getD j initRow)
        intro j hj
        by_cases hji : j = s.currentIndex
        · subst hji
          exact writeOutcome_getD_terminal _ _ _ hcl
        · rw [writeOutcome_getD_ne _ _ _ (fun h => hji h.symm)]
          exact hinv.terminalBefore j (by omega)
      · show ∀ j, s.currentIndex + 1 < j → j < R →
          (writeOutcome s.results s.currentIndex b).getD j initRow = initRow
        intro j hj hjR
        rw [writeOutcome_getD_ne _ _ _ (by omega)]
        exact hinv.pendingAfter j (by omega) hjR
      · show s.currentIndex + 1 < R →
          ((writeOutcome s.results s.currentIndex b).getD (s.currentIndex + 1)
            initRow).status = RStatus.processing ∨
          (writeOutcome s.results s.currentIndex b).getD (s.currentIndex + 1)
            initRow = initRow
        intro hlt
        right
        rw [writeOutcome_getD_ne _ _ _ (by omega)]
        exact hinv.pendingAfter (s.currentIndex + 1) (by omega) hlt
      · rfl
      · show s.status = RunStatus.done → R ≤ s.currentIndex + 1
        intro h
        rw [hsrun] at h
        exact absurd h (by simp)

theorem inv_runEv (R : Nat) : ∀ (evs : List Ev) (s : MState),
    Inv R s → Inv R (runEv R s evs) := by
  intro evs
  induction evs with
  | nil => intro s h; exact h
  | cons e evs ih =>
    intro s h
    exact ih (step R s e) (inv_step R s e h)

theorem reachable_inv (R : Nat) (s : MState) (h : Reachable R s) : Inv R s := by
  obtain ⟨evs, rfl⟩ := h
  exact inv_runEv R evs (initLoaded R) (inv_init R)

end KeywordsGen

namespace KeywordsGen

theorem fireEffect_getD_ne (R : Nat) (t : MState) (j : Nat) (hj : j ≠ t.currentIndex) :
    (fireEffect R t).results.getD j initRow = t.results.getD j initRow := by
  unfold fireEffect
  split
  · split
    · exact getD_set_ne _ _ _ (fun h => hj h.symm)
    · rfl
  · rfl

theorem fireEffect_status_or_done (R : Nat) (t : MState) :
    (fireEffect R t).status = t.status ∨ (fireEffect R t).status = RunStatus.done := by
  unfold fireEffect
  split
  · split
    · exact Or.inl rfl
    · exact Or.inr rfl
  · exact Or.inl rfl

theorem fireEffect_run_lt (R : Nat) (t : MState) (h1 : t.status = RunStatus.running)
    (h2 : t.currentIndex < R) :
    fireEffect R t = { t with
      results := t.results.set t.currentIndex
        { t.results.getD t.currentIndex initRow with status := RStatus.processing },
      inFlight := some t.currentIndex } := by
  unfold fireEffect
  rw [if_pos h1, if_pos h2]

theorem fireEffect_run_ge (R : Nat) (t : MState) (h1 : t.status = RunStatus.running)
    (h2 : ¬ t.currentIndex < R) :
    fireEffect R t = { t with status := RunStatus.done } := by
  unfold fireEffect
  rw [if_pos h1, if_neg h2]

/-! ## Claim theorems: the run loop -/

/-- C5: when the external call for the current row fails — a thrown failure,
or a response with missing/malformed `keywords` (which surfaces as the
thrown parse error) — the row's outcome becomes `error` with the message
derived by `errorMessageOf` (the `Error` message, or `"Unknown error"` for
a message-less failure), the cursor advances past the row, and the run does
not halt: the status stays `running` or becomes `done`. -/
theorem c5_row_failure_is_isolated (R : Nat) (s : MState) (b : ApiBehavior)
    (e : Failure)
    (hflight : s.inFlight = some s.currentIndex)
    (hlen : s.currentIndex < s.results.length)
    (hrun : s.status = RunStatus.running)
    (herr : generateKeywordsFromApi b = Except.error e) :
    (step R s (Ev.arrive b)).results.getD s.currentIndex initRow =
      ⟨RStatus.error, [], some (errorMessageOf e)⟩ ∧
    (step R s (Ev.arrive b)).currentIndex = s.currentIndex + 1 ∧
    ((step R s (Ev.arrive b)).status = RunStatus.running ∨
      (step R s (Ev.arrive b)).status = RunStatus.done) := by
  simp only [step, hflight]
  refine ⟨?_, ?_, ?_⟩
  · rw [fireEffect_getD_ne R _ _ (by show s.currentIndex ≠ s.currentIndex + 1; omega)]
    exact writeOutcome_getD_error s.results b e initRow hlen herr
  · rw [fireEffect_currentIndex]
  · rcases fireEffect_status_or_done R
        ⟨writeOutcome s.results s.currentIndex b, s.status, s.currentIndex + 1, none⟩
      with h | h
    · left
      rw [h]
      exact hrun
    · right
      exact h

theorem c5_witness :
    ((step 2 ⟨[⟨RStatus.processing, [], none⟩, initRow], RunStatus.running, 0, some 0⟩
        (Ev.arrive ApiBehavior.throwsOther)).results.getD 0 initRow =
      ⟨RStatus.error, [], some (errorMessageOf none)⟩) ∧
    ((step 2 ⟨[⟨RStatus.processing, [], none⟩, initRow], RunStatus.running, 0, some 0⟩
        (Ev.arrive ApiBehavior.throwsOther)).currentIndex = 0 + 1) ∧
    ((step 2 ⟨[⟨RStatus.processing, [], none⟩, initRow], RunStatus.running, 0, some 0⟩
        (Ev.arrive ApiBehavior.throwsOther)).status = RunStatus.running ∨
      (step 2 ⟨[⟨RStatus.processing, [], none⟩, initRow], RunStatus.running, 0, some 0⟩
        (Ev.arrive ApiBehavior.throwsOther)).status = RunStatus.done) :=
  c5_row_failure_is_isolated 2
    ⟨[⟨RStatus.processing, [], none⟩, initRow], RunStatus.running, 0, some 0⟩
    ApiBehavior.throwsOther none rfl (by decide) rfl rfl

theorem runArrivals_completes (R : Nat) :
    ∀ (bs : List ApiBehavior) (s : MState),
      s.status = RunStatus.running →
      s.inFlight = some s.currentIndex →
      s.currentIndex < R →
      s.currentIndex + bs.length = R →
      s.results.length = R →
      (∀ j, j < s.currentIndex → TerminalRow (s.results.getD j initRow)) →
      (runEv R s (bs.map Ev.arrive)).results.length = R ∧
      (∀ j, j < R →
        TerminalRow ((runEv R s (bs.map Ev.arrive)).results.getD j initRow)) ∧
      (runEv R s (bs.map Ev.arrive)).currentIndex = R ∧
      (runEv R s (bs.map Ev.arrive)).status = RunStatus.done := by
  intro bs
  induction bs with
  | nil =>
    intro s _ _ h3 h4 _ _
    simp only [List.length_nil] at h4
    omega
  | cons b bs ih =>
    intro s h1 h2 h3 h4 h5 h6
    have hcl : s.currentIndex < s.results.length := by rw [h5]; exact h3
    simp only [List.length_cons] at h4
    have hrw : runEv R s ((b :: bs).map Ev.arrive) =
        runEv R (step R s (Ev.arrive b)) (bs.map Ev.arrive) := rfl
    rw [hrw]
    have hstep : step R s (Ev.arrive b) =
        fireEffect R ⟨writeOutcome s.results s.currentIndex b, s.status,
          s.currentIndex + 1, none⟩ := by
      simp only [step, h2]
    rw [hstep]
    by_cases hlt : s.currentIndex + 1 < R
    · rw [fireEffect_run_lt R ⟨writeOutcome s.results s.currentIndex b, s.status,
        s.currentIndex + 1, none⟩ h1 hlt]
      apply ih
      · exact h1
      · rfl
      · exact hlt
      · show s.currentIndex + 1 + bs.length = R
        omega
      · show ((writeOutcome s.results s.currentIndex b).set (s.currentIndex + 1)
            _).length = R
        rw [List.length_set, writeOutcome_length]
        exact h5
      · show ∀ j, j < s.currentIndex + 1 →
          TerminalRow (((writeOutcome s.results s.currentIndex b).set
            (s.currentIndex + 1) _).getD j initRow)
        intro j hj
        rw [getD_set_ne _ _ _ (by omega)]
        by_cases hji : j = s.currentIndex
        · subst hji
          exact writeOutcome_getD_terminal _ _ _ hcl
        · rw [writeOutcome_getD_ne _ _ _ (fun h => hji h.symm)]
          exact h6 j (by omega)
    · have hbs : bs = [] := by
        have hl0 : bs.length = 0 := by omega
        exact List.length_eq_zero.mp hl0
      subst hbs
      rw [fireEffect_run_ge R ⟨writeOutcome s.results s.currentIndex b, s.status,
        s.currentIndex + 1, none⟩ h1 hlt]
      refine ⟨?_, ?_, ?_, ?_⟩
      · show (writeOutcome s.results s.currentIndex b).length = R
        rw [writeOutcome_length]
        exact h5
      · show ∀ j, j < R →
          TerminalRow ((writeOutcome s.results s.currentIndex b).getD j initRow)
        intro j hjR
        by_cases hji : j = s.currentIndex
        · subst hji
          exact writeOutcome_getD_terminal _ _ _ hcl
        · rw [writeOutcome_getD_ne _ _ _ (fun h => hji h.symm)]
          exact h6 j (by omega)
      · show s.currentIndex + 1 = R
        omega
      · rfl

/-- C1: for every valid table with `R` data rows, a full run — start pressed
once, never paused or reset, every external call arriving — ends with
exactly `R` outcomes, each terminal (`completed` or `error`), the cursor at
`R`, and status `done`. -/
theorem c1_full_run_completes (text : String) (R : Nat) (bs : List ApiBehavior)
    (hR : R = (parseCSV text).2.length)
    (hval : R ≠ 0)
    (hlen : bs.length = R) :
    (runEv R (initLoaded R) (Ev.toggle :: bs.map Ev.arrive)).results.length = R ∧
    (∀ j, j < R → TerminalRow
      ((runEv R (initLoaded R) (Ev.toggle :: bs.map Ev.arrive)).results.getD
        j initRow)) ∧
    (runEv R (initLoaded R) (Ev.toggle :: bs.map Ev.arrive)).currentIndex = R ∧
    (runEv R (initLoaded R) (Ev.toggle :: bs.map Ev.arrive)).status =
      RunStatus.done := by
  have h0 : 0 < R := Nat.pos_of_ne_zero hval
  have hrw : runEv R (initLoaded R) (Ev.toggle :: bs.map Ev.arrive) =
      runEv R (step R (initLoaded R) Ev.toggle) (bs.map Ev.arrive) := rfl
  rw [hrw]
  have hstart : step R (initLoaded R) Ev.toggle =
      ⟨(List.replicate R initRow).set 0 { initRow with status := RStatus.processing },
        RunStatus.running, 0, some 0⟩ := by
    simp only [step]
    rw [if_neg (by simp [initLoaded])]
    rw [fireEffect_run_lt R _ rfl (by exact h0)]
    simp [initLoaded, getD_replicate, h0]
  rw [hstart]
  apply runArrivals_completes R bs
  · rfl
  · rfl
  · exact h0
  · show 0 + bs.length = R
    omega
  · show ((List.replicate R initRow).set 0 _).length = R
    rw [List.length_set, List.length_replicate]
  · intro j hj
    have hj0 : j < 0 := hj
    exact absurd hj0 (by omega)

theorem c1_witness :
    (runEv 2 (initLoaded 2) (Ev.toggle ::
      [ApiBehavior.returns (some ["x"]), ApiBehavior.throwsOther].map
        Ev.arrive)).results.length = 2 ∧
    (∀ j, j < 2 → TerminalRow
      ((runEv 2 (initLoaded 2) (Ev.toggle ::
        [ApiBehavior.returns (some ["x"]), ApiBehavior.throwsOther].map
          Ev.arrive)).results.getD j initRow)) ∧
    (runEv 2 (initLoaded 2) (Ev.toggle ::
      [ApiBehavior.returns (some ["x"]), ApiBehavior.throwsOther].map
        Ev.arrive)).currentIndex = 2 ∧
    (runEv 2 (initLoaded 2) (Ev.toggle ::
      [ApiBehavior.returns (some ["x"]), ApiBehavior.throwsOther].map
        Ev.arrive)).status = RunStatus.done :=
  c1_full_run_completes "fileName\na\nb" 2
    [ApiBehavior.returns (some ["x"]), ApiBehavior.throwsOther]
    (by decide) (by decide) (by decide)

end KeywordsGen

namespace KeywordsGen

theorem runEv_no_toggle_id (R : Nat) : ∀ (evs : List Ev) (t : MState),
    t.inFlight = none → (∀ e ∈ evs, e ≠ Ev.toggle) → runEv R t evs = t := by
  intro evs
  induction evs with
  | nil => intro t _ _; rfl
  | cons e evs ih =>
    intro t hif hno
    have he : e ≠ Ev.toggle := hno e (List.mem_cons_self _ _)
    have hstep : step R t e = t := by
      cases e with
      | toggle => exact absurd rfl he
      | arrive b => simp only [step, hif]
      | staleArrive b => rfl
    have hrw : runEv R t (e :: evs) = runEv R (step R t e) evs := rfl
    rw [hrw, hstep]
    exact ih t hif (fun e' he' => hno e' (List.mem_cons_of_mem _ he'))

/-- C2: pausing at cursor `k` and never resuming discards every later
arriving result with no state mutation: the state after the pause is fixed
under any sequence of non-resume events, the status is `paused`, the cursor
stays at `k`, outcomes before `k` stay terminal, outcome `k` (if it exists)
is `processing` or terminal, and outcomes after `k` stay `pending`. -/
theorem c2_pause_freezes_state (R k : Nat) (s : MState)
    (hreach : Reachable R s)
    (hrun : s.status = RunStatus.running)
    (hk : s.currentIndex = k)
    (stales : List Ev)
    (hnores : ∀ e ∈ stales, e ≠ Ev.toggle) :
    runEv R (step R s Ev.toggle) stales = step R s Ev.toggle ∧
    (step R s Ev.toggle).status = RunStatus.paused ∧
    (step R s Ev.toggle).currentIndex = k ∧
    (∀ j, j < k → TerminalRow ((step R s Ev.toggle).results.getD j initRow)) ∧
    (k < R →
      ((step R s Ev.toggle).results.getD k initRow).status = RStatus.processing ∨
        TerminalRow ((step R s Ev.toggle).results.getD k initRow)) ∧
    (∀ j, k < j → j < R → (step R s Ev.toggle).results.getD j initRow = initRow) := by
  have hinv := reachable_inv R s hreach
  subst hk
  have hpause : step R s Ev.toggle =
      { s with status := RunStatus.paused, inFlight := none } := by
    simp only [step, if_pos hrun]
    unfold fireEffect
    rw [if_neg (by simp)]
  rw [hpause]
  refine ⟨runEv_no_toggle_id R stales _ rfl hnores, rfl, rfl, ?_, ?_, ?_⟩
  · intro j hj
    exact hinv.terminalBefore j hj
  · intro _
    left
    exact hinv.processingAtCursor hrun
  · intro j hj hjR
    exact hinv.pendingAfter j hj hjR

theorem c2_witness :
    (runEv 1 (step 1 ⟨[⟨RStatus.processing, [], none⟩], RunStatus.running, 0, some 0⟩
        Ev.toggle) [Ev.staleArrive (ApiBehavior.returns (some ["z"]))] =
      step 1 ⟨[⟨RStatus.processing, [], none⟩], RunStatus.running, 0, some 0⟩
        Ev.toggle) ∧
    (step 1 ⟨[⟨RStatus.processing, [], none⟩], RunStatus.running, 0, some 0⟩
        Ev.toggle).status = RunStatus.paused ∧
    (step 1 ⟨[⟨RStatus.processing, [], none⟩], RunStatus.running, 0, some 0⟩
        Ev.toggle).currentIndex = 0 ∧
    (∀ j, j < 0 → TerminalRow
      ((step 1 ⟨[⟨RStatus.processing, [], none⟩], RunStatus.running, 0, some 0⟩
        Ev.toggle).results.getD j initRow)) ∧
    (0 < 1 →
      ((step 1 ⟨[⟨RStatus.processing, [], none⟩], RunStatus.running, 0, some 0⟩
        Ev.toggle).results.getD 0 initRow).status = RStatus.processing ∨
        TerminalRow
          ((step 1 ⟨[⟨RStatus.processing, [], none⟩], RunStatus.running, 0, some 0⟩
            Ev.toggle).results.getD 0 initRow)) ∧
    (∀ j, 0 < j → j < 1 →
      (step 1 ⟨[⟨RStatus.processing, [], none⟩], RunStatus.running, 0, some 0⟩
        Ev.toggle).results.getD j initRow = initRow) :=
  c2_pause_freezes_state 1 0
    ⟨[⟨RStatus.processing, [], none⟩], RunStatus.running, 0, some 0⟩
    ⟨[Ev.toggle], by decide⟩ rfl rfl
    [Ev.staleArrive (ApiBehavior.returns (some ["z"]))] (by decide)

/-- C8: in every state reachable during a run, at most one outcome is
`processing`, and any event that moves the cursor moves it by exactly one
and leaves the previously processing row's outcome terminal. -/
theorem c8_single_processing_cursor_advance (R : Nat) (s : MState)
    (hreach : Reachable R s) :
    (∀ i j, (s.results.getD i initRow).status = RStatus.processing →
      (s.results.getD j initRow).status = RStatus.processing → i = j) ∧
    (∀ ev, (step R s ev).currentIndex ≠ s.currentIndex →
      (step R s ev).currentIndex = s.currentIndex + 1 ∧
      TerminalRow ((step R s ev).results.getD s.currentIndex initRow)) := by
  have hinv := reachable_inv R s hreach
  have key : ∀ m, (s.results.getD m initRow).status = RStatus.processing →
      m = s.currentIndex := by
    intro m hm
    by_cases hmc : m = s.currentIndex
    · exact hmc
    · exfalso
      by_cases hml : m < s.currentIndex
      · rcases hinv.terminalBefore m hml with h | h <;> rw [hm] at h <;> simp at h
      · by_cases hmR : m < R
        · have hpend := hinv.pendingAfter m (by omega) hmR
          rw [hpend] at hm
          simp [initRow] at hm
        · have hdef : s.results.getD m initRow = initRow :=
            List.getD_eq_default _ _ (by rw [hinv.len]; omega)
          rw [hdef] at hm
          simp [initRow] at hm
  constructor
  · intro i j hi hj
    rw [key i hi, key j hj]
  · intro ev hne
    cases ev with
    | toggle =>
      exfalso
      apply hne
      by_cases hrun : s.status = RunStatus.running
      · simp [step, if_pos hrun, fireEffect_currentIndex]
      · simp [step, if_neg hrun, fireEffect_currentIndex]
    | staleArrive b => exact absurd rfl hne
    | arrive b =>
      cases hif : s.inFlight with
      | none =>
        simp only [step, hif] at hne
        exact absurd rfl hne
      | some i =>
        obtain ⟨hieq, hsrun⟩ := hinv.inFlightOk i hif
        subst hieq
        have hcl : s.currentIndex < s.results.length := by
          rw [hinv.len]; exact hinv.runningLt hsrun
        constructor
        · simp [step, hif, fireEffect_currentIndex]
        · simp only [step, hif]
          rw [fireEffect_getD_ne R _ _
            (by show s.currentIndex ≠ s.currentIndex + 1; omega)]
          exact writeOutcome_getD_terminal _ _ _ hcl

theorem c8_witness :
    (∀ i j, (((⟨[⟨RStatus.processing, [], none⟩], RunStatus.running, 0, some 0⟩ :
        MState).results.getD i initRow).status = RStatus.processing →
      (((⟨[⟨RStatus.processing, [], none⟩], RunStatus.running, 0, some 0⟩ :
        MState).results.getD j initRow).status = RStatus.processing) → i = j)) ∧
    (∀ ev, (step 1 ⟨[⟨RStatus.processing, [], none⟩], RunStatus.running, 0, some 0⟩
        ev).currentIndex ≠
      (⟨[⟨RStatus.processing, [], none⟩], RunStatus.running, 0, some 0⟩ :
        MState).currentIndex →
      (step 1 ⟨[⟨RStatus.processing, [], none⟩], RunStatus.running, 0, some 0⟩
        ev).currentIndex =
        (⟨[⟨RStatus.processing, [], none⟩], RunStatus.running, 0, some 0⟩ :
          MState).currentIndex + 1 ∧
      TerminalRow ((step 1 ⟨[⟨RStatus.processing, [], none⟩], RunStatus.running, 0,
        some 0⟩ ev).results.getD
        (⟨[⟨RStatus.processing, [], none⟩], RunStatus.running, 0, some 0⟩ :
          MState).currentIndex initRow)) :=
  c8_single_processing_cursor_advance 1
    ⟨[⟨RStatus.processing, [], none⟩], RunStatus.running, 0, some 0⟩
    ⟨[Ev.toggle], by decide⟩

end KeywordsGen
